import Mathlib

/-!
Shallow embedding of the `flatmap` Rust crate (src/map.rs, src/set.rs):
linear-scan flat maps and sets, in growable (`FlatMap`, `FlatSet`) and
fixed-size (`ConstantFlatMap`, `ConstantFlatSet`) variants.

Rust `Vec<T>` / `[T; N]` backing storage is modelled as `List`; machine
indices are `Nat`; `Option<&V>` is `Option V`; `Result<T, (usize, usize)>`
is `Except (Nat × Nat) T`.  Mutating methods are modelled as functions
returning the new container together with the Rust return value.
-/

namespace Flatmap

/-- `FlatMapEntry<K, V>` from src/map.rs: an owned key/value pair. -/
structure FlatMapEntry (K V : Type) where
  key : K
  value : V
deriving DecidableEq, Repr

namespace FlatMapEntry

/-- `FlatMapEntry::new(key, value)`. -/
def new {K V : Type} (key : K) (value : V) : FlatMapEntry K V :=
  ⟨key, value⟩

end FlatMapEntry

/-- `impl From<(K, V)> for FlatMapEntry<K, V>`: `Self::new(value.0, value.1)`. -/
def pairToEntry {K V : Type} (value : K × V) : FlatMapEntry K V :=
  FlatMapEntry.new value.1 value.2

/-- `impl Into<(K, V)> for FlatMapEntry<K, V>`: `(self.key, self.value)`. -/
def entryToPair {K V : Type} (e : FlatMapEntry K V) : K × V :=
  (e.key, e.value)

/-- `FlatMap<K, V>` from src/map.rs: `inner: Vec<FlatMapEntry<K, V>>`. -/
structure FlatMap (K V : Type) where
  inner : List (FlatMapEntry K V)
deriving DecidableEq, Repr

/-- `Vec::swap_remove(i)` for a valid index `i`: the last element is moved
into slot `i` and the vector shrinks by one. -/
def swapRemove {α : Type} (l : List α) (i : Nat) : List α :=
  match l.getLast? with
  | none => []
  | some x => (l.set i x).take (l.length - 1)

namespace FlatMap

variable {K V : Type} [DecidableEq K]

/-- `FlatMap::with_capacity(capacity)`: an empty map (capacity is only an
allocation hint and has no observable content). -/
def with_capacity (_capacity : Nat) : FlatMap K V :=
  ⟨[]⟩

/-- `FlatMap::new()`. -/
def new : FlatMap K V :=
  with_capacity 0

/-- The loop body of `FlatMap::get`: scan for the first entry whose key
equals `k` and return its value. -/
def getList (k : K) : List (FlatMapEntry K V) → Option V
  | [] => none
  | e :: rest => if e.key = k then some e.value else getList k rest

/-- `FlatMap::get(&self, k)`. -/
def get (m : FlatMap K V) (k : K) : Option V :=
  getList k m.inner

/-- The loop of `FlatMap::insert`: replace the value of the first entry with
key `k` (keeping the stored key) and return the previous value, or append a
new entry at the end and return `none`. -/
def insertList (k : K) (v : V) : List (FlatMapEntry K V) → List (FlatMapEntry K V) × Option V
  | [] => ([FlatMapEntry.new k v], none)
  | e :: rest =>
    if e.key = k then
      (⟨e.key, v⟩ :: rest, some e.value)
    else
      let r := insertList k v rest
      (e :: r.1, r.2)

/-- `FlatMap::insert(&mut self, k, v) -> Option<V>`, returning the updated
map together with the Rust return value. -/
def insert (m : FlatMap K V) (k : K) (v : V) : FlatMap K V × Option V :=
  let r := insertList k v m.inner
  (⟨r.1⟩, r.2)

/-- Index of the first entry whose key equals `k`, as scanned by the loop in
`FlatMap::delete`. -/
def findKeyIdx (k : K) : List (FlatMapEntry K V) → Option Nat
  | [] => none
  | e :: rest => if e.key = k then some 0 else (findKeyIdx k rest).map (· + 1)

/-- `FlatMap::delete(&mut self, k) -> Option<V>`: find the first matching
slot, `swap_remove` it and return its value. -/
def delete (m : FlatMap K V) (k : K) : FlatMap K V × Option V :=
  match findKeyIdx k m.inner with
  | some i => (⟨swapRemove m.inner i⟩, (m.inner[i]?).map FlatMapEntry.value)
  | none => (m, none)

/-- `FlatMap::from_entries(iter)`: insert every entry through the checked
`insert` path. -/
def from_entries (l : List (FlatMapEntry K V)) : FlatMap K V :=
  l.foldl (fun m e => (m.insert e.key e.value).1) (with_capacity l.length)

/-- `FlatMap::from_entries_unchecked(iter)`: adopt the entries directly. -/
def from_entries_unchecked (l : List (FlatMapEntry K V)) : FlatMap K V :=
  ⟨l⟩

/-- `impl From<I> for FlatMap` where `I: Iterator<Item = (K, V)>`:
`from_entries(value.map(FlatMapEntry::from))`. -/
def from_pairs (l : List (K × V)) : FlatMap K V :=
  from_entries (l.map pairToEntry)

/-- Keys of the stored entries, in storage order. -/
def keys (m : FlatMap K V) : List K :=
  m.inner.map FlatMapEntry.key

end FlatMap

/-- `FlatSet<K>` from src/set.rs: `inner: Vec<K>`. -/
structure FlatSet (K : Type) where
  inner : List K
deriving DecidableEq, Repr

namespace FlatSet

variable {K : Type} [DecidableEq K]

/-- `FlatSet::with_capacity(capacity)`: an empty set. -/
def with_capacity (_capacity : Nat) : FlatSet K :=
  ⟨[]⟩

/-- `FlatSet::new()`. -/
def new : FlatSet K :=
  with_capacity 0

/-- The loop of `FlatSet::has`: linear scan for an equal element. -/
def hasList (k : K) : List K → Bool
  | [] => false
  | x :: rest => if x = k then true else hasList k rest

/-- `FlatSet::has(&self, key)`. -/
def has (s : FlatSet K) (k : K) : Bool :=
  hasList k s.inner

/-- `FlatSet::insert(&mut self, key) -> bool`: returns `true` when the key
already exists (set unchanged), otherwise pushes it and returns `false`. -/
def insert (s : FlatSet K) (k : K) : FlatSet K × Bool :=
  if s.has k then (s, true) else (⟨s.inner ++ [k]⟩, false)

/-- Index of the first element equal to `k`, as scanned by `FlatSet::delete`. -/
def findIdx (k : K) : List K → Option Nat
  | [] => none
  | x :: rest => if x = k then some 0 else (findIdx k rest).map (· + 1)

/-- `FlatSet::delete(&mut self, key) -> bool`: `swap_remove` the first
matching slot and return `true`, else return `false`. -/
def delete (s : FlatSet K) (k : K) : FlatSet K × Bool :=
  match findIdx k s.inner with
  | some i => (⟨swapRemove s.inner i⟩, true)
  | none => (s, false)

/-- `FlatSet::from_iter(iter)`: insert every item through the checked
`insert` path. -/
def from_iter (l : List K) : FlatSet K :=
  l.foldl (fun s x => (s.insert x).1) (with_capacity l.length)

/-- `FlatSet::from_iter_unchecked(iter)`. -/
def from_iter_unchecked (l : List K) : FlatSet K :=
  ⟨l⟩

end FlatSet

/-- Inner loop of the `from_entries` duplicate scan: for a fixed earlier
element `x`, the first offset `j` into the remaining elements with
`x = l[j]` (Rust `entries[i] == entries[j]`, scanned in ascending `j`). -/
def firstEqIdx {K : Type} [DecidableEq K] (x : K) : List K → Option Nat
  | [] => none
  | y :: rest => if x = y then some 0 else (firstEqIdx x rest).map (· + 1)

/-- The double loop of `ConstantFlatMap::from_entries` /
`ConstantFlatSet::from_entries`: scan index pairs `(i, j)`, `i < j`, in
ascending lexicographic order and return the first pair of equal elements. -/
def findDupPair {K : Type} [DecidableEq K] : List K → Option (Nat × Nat)
  | [] => none
  | x :: rest =>
    match firstEqIdx x rest with
    | some j => some (0, j + 1)
    | none => (findDupPair rest).map (fun p => (p.1 + 1, p.2 + 1))

/-- `ConstantFlatMap<K, V, N>` from src/map.rs: `inner: [FlatMapEntry<K, V>; N]`
(the array is modelled as a list; its length plays the role of `N`). -/
structure ConstantFlatMap (K V : Type) where
  inner : List (FlatMapEntry K V)
deriving DecidableEq, Repr

namespace ConstantFlatMap

variable {K V : Type} [DecidableEq K]

/-- `ConstantFlatMap::get(&self, key)`: same linear scan as `FlatMap::get`. -/
def get (m : ConstantFlatMap K V) (k : K) : Option V :=
  FlatMap.getList k m.inner

/-- `ConstantFlatMap::from_entries_unchecked(entries)`. -/
def from_entries_unchecked (entries : List (FlatMapEntry K V)) : ConstantFlatMap K V :=
  ⟨entries⟩

/-- `ConstantFlatMap::from_entries(entries)`: exhaustive pairwise duplicate
check; on the first equal-key pair `(i, j)` return `Err((i, j))`, otherwise
adopt the array. -/
def from_entries (entries : List (FlatMapEntry K V)) :
    Except (Nat × Nat) (ConstantFlatMap K V) :=
  match findDupPair (entries.map FlatMapEntry.key) with
  | some p => .error p
  | none => .ok (from_entries_unchecked entries)

/-- `impl From<[FlatMapEntry<K, V>; N]> for ConstantFlatMap<K, V, N>`:
adopts the array as-is, with no validation. -/
def fromEntriesArray (entries : List (FlatMapEntry K V)) : ConstantFlatMap K V :=
  ⟨entries⟩

/-- `impl From<[(K, V); N]> for ConstantFlatMap<K, V, N>`:
`entries.map(FlatMapEntry::from)`, with no validation. -/
def fromPairsArray (entries : List (K × V)) : ConstantFlatMap K V :=
  ⟨entries.map pairToEntry⟩

end ConstantFlatMap

/-- `ConstantFlatSet<K, N>` from src/set.rs: `inner: [K; N]`. -/
structure ConstantFlatSet (K : Type) where
  inner : List K
deriving DecidableEq, Repr

namespace ConstantFlatSet

variable {K : Type} [DecidableEq K]

/-- `ConstantFlatSet::has(&self, key)`. -/
def has (s : ConstantFlatSet K) (k : K) : Bool :=
  FlatSet.hasList k s.inner

/-- `ConstantFlatSet::from_entries_unchecked(entries)`. -/
def from_entries_unchecked (entries : List K) : ConstantFlatSet K :=
  ⟨entries⟩

/-- `ConstantFlatSet::from_entries(entries)`: same pairwise duplicate scan as
`ConstantFlatMap::from_entries`, over the elements themselves. -/
def from_entries (entries : List K) : Except (Nat × Nat) (ConstantFlatSet K) :=
  match findDupPair entries with
  | some p => .error p
  | none => .ok (from_entries_unchecked entries)

end ConstantFlatSet

end Flatmap

/-! ## Specification vocabulary -/

namespace Flatmap

/-- The key stored at slot `n` of an entry list, if the slot exists. -/
def keyAt {K V : Type} (l : List (FlatMapEntry K V)) (n : Nat) : Option K :=
  (l[n]?).map FlatMapEntry.key

/-- The value of the last entry of `l` whose key is `k`: the winning value
under the "last entry provided wins" rule of the spec. -/
def lastOccurrenceValue {K V : Type} [DecidableEq K] (k : K)
    (l : List (FlatMapEntry K V)) : Option V :=
  (l.reverse.find? (fun e => decide (e.key = k))).map FlatMapEntry.value

/-- Deduplication keeping the first occurrence of every element, in input
order: the iteration order the spec promises for `FlatSet::from_iter`. -/
def firstOccurrenceDedup {K : Type} [DecidableEq K] (l : List K) : List K :=
  l.foldl (fun acc x => if x ∈ acc then acc else acc ++ [x]) []

/-- States of `FlatMap` reachable from the checked constructors by any
sequence of `insert` and `delete` calls. -/
inductive FlatMapReachable {K V : Type} [DecidableEq K] : FlatMap K V → Prop where
  | new : FlatMapReachable FlatMap.new
  | with_capacity (n : Nat) : FlatMapReachable (FlatMap.with_capacity n)
  | from_entries (l : List (FlatMapEntry K V)) : FlatMapReachable (FlatMap.from_entries l)
  | from_pairs (l : List (K × V)) : FlatMapReachable (FlatMap.from_pairs l)
  | insert (m : FlatMap K V) (k : K) (v : V) :
      FlatMapReachable m → FlatMapReachable (m.insert k v).1
  | delete (m : FlatMap K V) (k : K) :
      FlatMapReachable m → FlatMapReachable (m.delete k).1

/-- States of `FlatSet` reachable from the checked constructors by any
sequence of `insert` and `delete` calls. -/
inductive FlatSetReachable {K : Type} [DecidableEq K] : FlatSet K → Prop where
  | new : FlatSetReachable FlatSet.new
  | with_capacity (n : Nat) : FlatSetReachable (FlatSet.with_capacity n)
  | from_iter (l : List K) : FlatSetReachable (FlatSet.from_iter l)
  | insert (s : FlatSet K) (k : K) : FlatSetReachable s → FlatSetReachable (s.insert k).1
  | delete (s : FlatSet K) (k : K) : FlatSetReachable s → FlatSetReachable (s.delete k).1

/-- States reachable from `from_entries_unchecked l0` using `insert` calls
only (the delete-free fragment of C7). -/
inductive InsertOnlyReachable {K V : Type} [DecidableEq K]
    (l0 : List (FlatMapEntry K V)) : FlatMap K V → Prop where
  | base : InsertOnlyReachable l0 (FlatMap.from_entries_unchecked l0)
  | insert (m : FlatMap K V) (k : K) (v : V) :
      InsertOnlyReachable l0 m → InsertOnlyReachable l0 (m.insert k v).1

end Flatmap

/-! ## Lemmas about `swapRemove` -/

namespace Flatmap

theorem swapRemove_eq_of_getLast? {α : Type} {l : List α} {x : α} (hx : l.getLast? = some x)
    (i : Nat) : swapRemove l i = (l.set i x).take (l.length - 1) := by
  simp [swapRemove, hx]

theorem swapRemove_getElem? {α : Type} {l : List α} {i : Nat} (h : i < l.length) (j : Nat) :
    (swapRemove l i)[j]? =
      if j < l.length - 1 then (if j = i then l[l.length - 1]? else l[j]?) else none := by
  have hlen : l.length - 1 < l.length := by omega
  have hx : l.getLast? = some (l.get ⟨l.length - 1, hlen⟩) := by
    rw [List.getLast?_eq_getElem? l, List.getElem?_eq_getElem hlen]
    rfl
  rw [swapRemove_eq_of_getLast? hx i, List.getElem?_take]
  by_cases hj : j < l.length - 1
  · simp only [hj, if_true]
    rw [List.getElem?_set]
    by_cases hij : j = i
    · subst hij
      simp only [if_pos rfl, h, if_true]
      rw [List.getElem?_eq_getElem hlen]
      rfl
    · have hji : i ≠ j := fun hc => hij hc.symm
      simp [hij, hji]
  · simp [hj]

theorem swapRemove_length {α : Type} {l : List α} {i : Nat} (h : i < l.length) :
    (swapRemove l i).length = l.length - 1 := by
  have hlen : l.length - 1 < l.length := by omega
  have hx : l.getLast? = some (l.get ⟨l.length - 1, hlen⟩) := by
    rw [List.getLast?_eq_getElem? l, List.getElem?_eq_getElem hlen]
    rfl
  rw [swapRemove_eq_of_getLast? hx i]
  simp [List.length_take, List.length_set]

theorem swapRemove_mem {α : Type} {l : List α} {i : Nat} (h : i < l.length) {a : α}
    (ha : a ∈ swapRemove l i) : ∃ j, j < l.length ∧ j ≠ i ∧ l[j]? = some a := by
  rw [List.mem_iff_getElem?] at ha
  obtain ⟨n, hn⟩ := ha
  rw [swapRemove_getElem? h n] at hn
  by_cases h1 : n < l.length - 1
  · simp only [h1, if_true] at hn
    by_cases h2 : n = i
    · simp only [h2, if_pos rfl] at hn
      exact ⟨l.length - 1, by omega, by omega, hn⟩
    · simp only [h2, if_false] at hn
      exact ⟨n, by omega, h2, hn⟩
  · simp [h1] at hn

theorem swapRemove_map {α β : Type} (f : α → β) (l : List α) (i : Nat) :
    swapRemove (l.map f) i = (swapRemove l i).map f := by
  rcases hl : l.getLast? with _ | x
  · have : l = [] := by cases l <;> simp_all [List.getLast?_eq_getElem?]
    subst this
    simp [swapRemove]
  · have hm : (l.map f).getLast? = some (f x) := by rw [List.getLast?_map, hl]; rfl
    rw [swapRemove_eq_of_getLast? hl i, swapRemove_eq_of_getLast? hm i]
    rw [← List.map_set, ← List.map_take, List.length_map]

theorem swapRemove_nodup {α : Type} {l : List α} {i : Nat} (h : i < l.length)
    (hnd : l.Nodup) : (swapRemove l i).Nodup := by
  have hne : ∀ a b : Nat, a ≠ b → a < l.length → b < l.length → l[a]? ≠ l[b]? := by
    intro a b hab ha hb
    rcases Nat.lt_or_ge a b with hlt | hge
    · exact (List.nodup_iff_getElem?_ne_getElem?.mp hnd) a b hlt hb
    · have hlt : b < a := by omega
      intro hc
      exact (List.nodup_iff_getElem?_ne_getElem?.mp hnd) b a hlt ha hc.symm
  rw [List.nodup_iff_getElem?_ne_getElem?]
  intro a b hab hb heq
  rw [swapRemove_length h] at hb
  rw [swapRemove_getElem? h a, swapRemove_getElem? h b] at heq
  have ha1 : a < l.length - 1 := by omega
  simp only [ha1, hb, if_true] at heq
  by_cases h2 : a = i
  · by_cases h3 : b = i
    · omega
    · simp only [h2, h3, if_pos rfl, if_false] at heq
      exact hne (l.length - 1) b (by omega) (by omega) (by omega) heq
  · by_cases h3 : b = i
    · simp only [h2, h3, if_pos rfl, if_false] at heq
      exact hne a (l.length - 1) (by omega) (by omega) (by omega) heq
    · simp only [h2, h3, if_false] at heq
      exact hne a b (by omega) (by omega) (by omega) heq

end Flatmap

/-! ## Lemmas about the `FlatMap` scan loops -/

namespace Flatmap

namespace FlatMap

variable {K V : Type} [DecidableEq K]

theorem getList_eq_none_iff {k : K} {l : List (FlatMapEntry K V)} :
    getList k l = none ↔ ∀ e ∈ l, e.key ≠ k := by
  induction l with
  | nil => simp [getList]
  | cons e rest ih =>
    simp only [getList]
    by_cases he : e.key = k
    · simp [he]
    · simp [he, ih]

theorem findKeyIdx_eq_none_iff {k : K} {l : List (FlatMapEntry K V)} :
    findKeyIdx k l = none ↔ ∀ e ∈ l, e.key ≠ k := by
  induction l with
  | nil => simp [findKeyIdx]
  | cons e rest ih =>
    simp only [findKeyIdx]
    by_cases he : e.key = k
    · simp [he]
    · simp [he, ih]

theorem findKeyIdx_eq_some_iff {k : K} {l : List (FlatMapEntry K V)} {i : Nat} :
    findKeyIdx k l = some i ↔
      ((l[i]?).map FlatMapEntry.key = some k ∧
       ∀ j, j < i → (l[j]?).map FlatMapEntry.key ≠ some k) := by
  induction l generalizing i with
  | nil => simp [findKeyIdx]
  | cons e rest ih =>
    simp only [findKeyIdx]
    by_cases he : e.key = k
    · simp only [he, if_true]
      constructor
      · rintro h
        injection h with h
        subst h
        simp [he]
      · rintro ⟨h1, h2⟩
        rcases i with _ | i
        · rfl
        · exact absurd (by simp [he]) (h2 0 (by omega))
    · simp only [he, if_false]
      constructor
      · intro h
        rcases Option.map_eq_some'.mp h with ⟨i0, hi0, rfl⟩
        rcases (ih.mp hi0) with ⟨h1, h2⟩
        refine ⟨by simpa using h1, ?_⟩
        intro j hj
        rcases j with _ | j
        · simp [he]
        · rw [List.getElem?_cons_succ]
          exact h2 j (by omega)
      · rintro ⟨h1, h2⟩
        rcases i with _ | i
        · simp only [List.getElem?_cons_zero, Option.map_some'] at h1
          injection h1 with h1
          exact absurd h1 he
        · rw [List.getElem?_cons_succ] at h1
          have : findKeyIdx k rest = some i := by
            refine ih.mpr ⟨h1, ?_⟩
            intro j hj
            have := h2 (j + 1) (by omega)
            rwa [List.getElem?_cons_succ] at this
          simp [this]

theorem getList_eq_of_findKeyIdx {k : K} {l : List (FlatMapEntry K V)} {i : Nat}
    (h : findKeyIdx k l = some i) :
    getList k l = (l[i]?).map FlatMapEntry.value := by
  induction l generalizing i with
  | nil => simp [findKeyIdx] at h
  | cons e rest ih =>
    simp only [findKeyIdx] at h
    simp only [getList]
    by_cases he : e.key = k
    · simp only [he, if_true] at h ⊢
      injection h with h
      subst h
      simp
    · simp only [he, if_false] at h ⊢
      rcases Option.map_eq_some'.mp h with ⟨i0, hi0, rfl⟩
      rw [List.getElem?_cons_succ]
      exact ih hi0

theorem insertList_of_none {k : K} {v : V} {l : List (FlatMapEntry K V)}
    (h : findKeyIdx k l = none) :
    insertList k v l = (l ++ [FlatMapEntry.new k v], none) := by
  induction l with
  | nil => rfl
  | cons e rest ih =>
    simp only [findKeyIdx] at h
    by_cases he : e.key = k
    · simp [he] at h
    · simp only [he, if_false, Option.map_eq_none'] at h
      simp [insertList, he, ih h]

theorem insertList_of_some {k : K} {v : V} {l : List (FlatMapEntry K V)} {i : Nat}
    (h : findKeyIdx k l = some i) :
    ∃ e, l[i]? = some e ∧ e.key = k ∧
      insertList k v l = (l.set i (FlatMapEntry.mk e.key v), some e.value) := by
  induction l generalizing i with
  | nil => simp [findKeyIdx] at h
  | cons e rest ih =>
    simp only [findKeyIdx] at h
    by_cases he : e.key = k
    · simp only [he, if_true] at h
      injection h with h
      subst h
      exact ⟨e, by simp, he, by simp [insertList, he]⟩
    · simp only [he, if_false] at h
      rcases Option.map_eq_some'.mp h with ⟨i0, hi0, rfl⟩
      rcases ih hi0 with ⟨e0, he0, hk0, hins⟩
      refine ⟨e0, by simpa using he0, hk0, ?_⟩
      simp [insertList, he, hins]

theorem getList_insertList {k k2 : K} {v : V} {l : List (FlatMapEntry K V)} :
    getList k2 (insertList k v l).1 = if k = k2 then some v else getList k2 l := by
  induction l with
  | nil =>
    simp [insertList, getList, FlatMapEntry.new]
  | cons e rest ih =>
    simp only [insertList]
    by_cases he : e.key = k
    · simp only [he, if_true]
      by_cases hk : k = k2
      · subst hk
        simp [getList, he]
      · have hek2 : ¬ (e.key = k2) := by rw [he]; exact hk
        simp [getList, hek2, hk]
    · simp only [he, if_false]
      by_cases hek2 : e.key = k2
      · have hk : ¬ (k = k2) := by
          intro hc
          exact he (by rw [hc, hek2])
        simp [getList, hek2, hk]
      · simp [getList, hek2, ih]

end FlatMap

end Flatmap

namespace Flatmap

namespace FlatMap

variable {K V : Type} [DecidableEq K]

omit [DecidableEq K] in
theorem map_key_set_of_getElem? {l : List (FlatMapEntry K V)} {i : Nat}
    {e : FlatMapEntry K V} (he : l[i]? = some e) (v : V) :
    (l.set i (FlatMapEntry.mk e.key v)).map FlatMapEntry.key = l.map FlatMapEntry.key := by
  apply List.ext_getElem?
  intro j
  rw [List.getElem?_map, List.getElem?_map, List.getElem?_set]
  by_cases hij : i = j
  · subst hij
    have hi : i < l.length := (List.getElem?_eq_some.mp he).1
    simp [hi, he]
  · simp [hij]

theorem keys_insertList_of_some {k : K} {v : V} {l : List (FlatMapEntry K V)} {i : Nat}
    (h : findKeyIdx k l = some i) :
    (insertList k v l).1.map FlatMapEntry.key = l.map FlatMapEntry.key := by
  rcases insertList_of_some (v := v) h with ⟨e, he, _, hins⟩
  rw [hins]
  exact map_key_set_of_getElem? he v

theorem keys_nodup_insertList {k : K} {v : V} {l : List (FlatMapEntry K V)}
    (h : (l.map FlatMapEntry.key).Nodup) :
    ((insertList k v l).1.map FlatMapEntry.key).Nodup := by
  rcases hf : findKeyIdx k l with _ | i
  · rw [insertList_of_none hf]
    have hk : k ∉ l.map FlatMapEntry.key := by
      rw [List.mem_map]
      rintro ⟨e, hmem, hkey⟩
      exact (findKeyIdx_eq_none_iff.mp hf) e hmem hkey
    simp only [List.map_append, List.map_cons, List.map_nil]
    rw [List.nodup_append]
    refine ⟨h, List.nodup_singleton _, ?_⟩
    intro a ha hb
    simp only [FlatMapEntry.new, List.mem_singleton] at hb
    subst hb
    exact hk ha
  · rw [keys_insertList_of_some hf]
    exact h

theorem length_insertList_of_some {k : K} {v : V} {l : List (FlatMapEntry K V)} {i : Nat}
    (h : findKeyIdx k l = some i) :
    (insertList k v l).1.length = l.length := by
  rcases insertList_of_some (v := v) h with ⟨e, _, _, hins⟩
  rw [hins]
  exact List.length_set l i _

theorem from_entries_append (l : List (FlatMapEntry K V)) (e : FlatMapEntry K V) :
    from_entries (l ++ [e]) = ((from_entries l).insert e.key e.value).1 := by
  simp [from_entries, List.foldl_append, with_capacity]

theorem keys_nodup_from_entries (l : List (FlatMapEntry K V)) :
    ((from_entries l).keys).Nodup := by
  induction l using List.reverseRecOn with
  | nil => simp [from_entries, with_capacity, keys]
  | append_singleton l e ih =>
    rw [from_entries_append]
    exact keys_nodup_insertList ih

end FlatMap

namespace FlatSet

variable {K : Type} [DecidableEq K]

theorem hasList_eq_true_iff {k : K} {l : List K} :
    hasList k l = true ↔ k ∈ l := by
  induction l with
  | nil => simp [hasList]
  | cons x rest ih =>
    simp only [hasList]
    by_cases hx : x = k
    · simp [hx]
    · have : ¬ (k = x) := fun hc => hx hc.symm
      simp [hx, ih, this]

theorem hasList_eq_false_iff {k : K} {l : List K} :
    hasList k l = false ↔ k ∉ l := by
  rw [← hasList_eq_true_iff]
  cases hasList k l <;> simp

theorem findIdx_eq_none_iff {k : K} {l : List K} :
    findIdx k l = none ↔ k ∉ l := by
  induction l with
  | nil => simp [findIdx]
  | cons x rest ih =>
    simp only [findIdx]
    by_cases hx : x = k
    · simp [hx]
    · have : ¬ (k = x) := fun hc => hx hc.symm
      simp [hx, ih, this]

theorem findIdx_eq_some_iff {k : K} {l : List K} {i : Nat} :
    findIdx k l = some i ↔ (l[i]? = some k ∧ ∀ j, j < i → l[j]? ≠ some k) := by
  induction l generalizing i with
  | nil => simp [findIdx]
  | cons x rest ih =>
    simp only [findIdx]
    by_cases hx : x = k
    · simp only [hx, if_true]
      constructor
      · rintro h
        injection h with h
        subst h
        simp
      · rintro ⟨h1, h2⟩
        rcases i with _ | i
        · rfl
        · exact absurd (by simp : (k :: rest)[0]? = some k) (h2 0 (by omega))
    · simp only [hx, if_false]
      constructor
      · intro h
        rcases Option.map_eq_some'.mp h with ⟨i0, hi0, rfl⟩
        rcases (ih.mp hi0) with ⟨h1, h2⟩
        refine ⟨by simpa using h1, ?_⟩
        intro j hj
        rcases j with _ | j
        · intro hc
          simp only [List.getElem?_cons_zero] at hc
          injection hc with hc
          exact hx hc
        · rw [List.getElem?_cons_succ]
          exact h2 j (by omega)
      · rintro ⟨h1, h2⟩
        rcases i with _ | i
        · simp only [List.getElem?_cons_zero] at h1
          injection h1 with h1
          exact absurd h1 hx
        · rw [List.getElem?_cons_succ] at h1
          have : findIdx k rest = some i := by
            refine ih.mpr ⟨h1, ?_⟩
            intro j hj
            have := h2 (j + 1) (by omega)
            rwa [List.getElem?_cons_succ] at this
          simp [this]

theorem from_iter_append (l : List K) (x : K) :
    from_iter (l ++ [x]) = ((from_iter l).insert x).1 := by
  simp [from_iter, List.foldl_append, with_capacity]

theorem from_iter_nodup (l : List K) :
    (from_iter l).inner.Nodup := by
  induction l using List.reverseRecOn with
  | nil => simp [from_iter, with_capacity]
  | append_singleton l x ih =>
    rw [from_iter_append]
    unfold insert
    by_cases hx : (from_iter l).has x
    · simp [hx, ih]
    · simp only [hx, Bool.false_eq_true, if_false]
      have hnm : x ∉ (from_iter l).inner := by
        rw [← hasList_eq_false_iff]
        simpa [has] using hx
      simp [List.nodup_append, ih, hnm]

end FlatSet

end Flatmap

/-! ## The pairwise duplicate scan of the fixed-size constructors -/

namespace Flatmap

/-- Strict lexicographic order on index pairs — the order in which the nested
loops of `from_entries` visit candidate pairs. -/
def pairLexLt (p q : Nat × Nat) : Prop :=
  p.1 < q.1 ∨ (p.1 = q.1 ∧ p.2 < q.2)

instance (p q : Nat × Nat) : Decidable (pairLexLt p q) := by
  unfold pairLexLt
  exact inferInstance

theorem firstEqIdx_eq_some_iff {K : Type} [DecidableEq K] {x : K} {l : List K} {j : Nat} :
    firstEqIdx x l = some j ↔ (l[j]? = some x ∧ ∀ m, m < j → l[m]? ≠ some x) := by
  induction l generalizing j with
  | nil => simp [firstEqIdx]
  | cons y rest ih =>
    simp only [firstEqIdx]
    by_cases hy : x = y
    · subst hy
      simp only [if_pos rfl]
      constructor
      · rintro h
        injection h with h
        subst h
        simp
      · rintro ⟨h1, h2⟩
        rcases j with _ | j
        · rfl
        · exact absurd (by simp : (x :: rest)[0]? = some x) (h2 0 (by omega))
    · simp only [hy, if_false]
      constructor
      · intro h
        rcases Option.map_eq_some'.mp h with ⟨j0, hj0, rfl⟩
        rcases (ih.mp hj0) with ⟨h1, h2⟩
        refine ⟨by simpa using h1, ?_⟩
        intro m hm
        rcases m with _ | m
        · intro hc
          simp only [List.getElem?_cons_zero] at hc
          injection hc with hc
          exact hy hc.symm
        · rw [List.getElem?_cons_succ]
          exact h2 m (by omega)
      · rintro ⟨h1, h2⟩
        rcases j with _ | j
        · simp only [List.getElem?_cons_zero] at h1
          injection h1 with h1
          exact absurd h1.symm hy
        · rw [List.getElem?_cons_succ] at h1
          have : firstEqIdx x rest = some j := by
            refine ih.mpr ⟨h1, ?_⟩
            intro m hm
            have := h2 (m + 1) (by omega)
            rwa [List.getElem?_cons_succ] at this
          simp [this]

theorem firstEqIdx_eq_none_iff {K : Type} [DecidableEq K] {x : K} {l : List K} :
    firstEqIdx x l = none ↔ ∀ m : Nat, l[m]? ≠ some x := by
  induction l with
  | nil => simp [firstEqIdx]
  | cons y rest ih =>
    simp only [firstEqIdx]
    by_cases hy : x = y
    · subst hy
      simp only [if_pos rfl]
      constructor
      · intro h
        exact absurd h (by simp)
      · intro h
        exact absurd (by simp : (x :: rest)[0]? = some x) (h 0)
    · simp only [hy, if_false, Option.map_eq_none']
      rw [ih]
      constructor
      · intro h m
        rcases m with _ | m
        · intro hc
          simp only [List.getElem?_cons_zero] at hc
          injection hc with hc
          exact hy hc.symm
        · rw [List.getElem?_cons_succ]
          exact h m
      · intro h m
        have := h (m + 1)
        rwa [List.getElem?_cons_succ] at this

theorem findDupPair_eq_some_iff {K : Type} [DecidableEq K] {l : List K} {i j : Nat} :
    findDupPair l = some (i, j) ↔
      (i < j ∧ j < l.length ∧ l[i]? = l[j]? ∧
       ∀ j2, j2 < l.length → ∀ i2, i2 < j2 → pairLexLt (i2, j2) (i, j) →
         l[i2]? ≠ l[j2]?) := by
  induction l generalizing i j with
  | nil => simp [findDupPair]
  | cons x rest ih =>
    simp only [findDupPair]
    rcases hA : firstEqIdx x rest with _ | j0
    · -- no duplicate of the head element: recurse on the tail, shifting indices
      have hBad : ∀ m, rest[m]? ≠ some x := firstEqIdx_eq_none_iff.mp hA
      simp only [Option.map_eq_some']
      constructor
      · rintro ⟨⟨i0, j0⟩, hp, hpe⟩
        have hi : i = i0 + 1 := by
          have := congrArg Prod.fst hpe
          simpa using this.symm
        have hj : j = j0 + 1 := by
          have := congrArg Prod.snd hpe
          simpa using this.symm
        subst hi
        subst hj
        rcases ih.mp hp with ⟨h1, h2, h3, h4⟩
        refine ⟨by omega, by simpa using h2, ?_, ?_⟩
        · rw [List.getElem?_cons_succ, List.getElem?_cons_succ]
          exact h3
        · intro j2 hj2 i2 hi2 hlex
          rcases i2 with _ | i2
          · rcases j2 with _ | j2
            · omega
            · rw [List.getElem?_cons_zero, List.getElem?_cons_succ]
              intro hc
              exact hBad j2 hc.symm
          · rcases j2 with _ | j2
            · omega
            · rw [List.getElem?_cons_succ, List.getElem?_cons_succ]
              refine h4 j2 (by simpa using hj2) i2 (by omega) ?_
              rcases hlex with hl | ⟨hl1, hl2⟩
              · exact Or.inl (by omega)
              · exact Or.inr ⟨by omega, by omega⟩
      · rintro ⟨h1, h2, h3, h4⟩
        rcases i with _ | i0
        · -- impossible: the head has no duplicate
          rcases j with _ | j1
          · omega
          · rw [List.getElem?_cons_zero, List.getElem?_cons_succ] at h3
            exact absurd h3.symm (hBad j1)
        · rcases j with _ | j1
          · omega
          · rw [List.getElem?_cons_succ, List.getElem?_cons_succ] at h3
            refine ⟨(i0, j1), ih.mpr ⟨by omega, by simpa using h2, h3, ?_⟩, rfl⟩
            intro j2 hj2 i2 hi2 hlex
            have := h4 (j2 + 1) (by simpa using Nat.succ_lt_succ hj2) (i2 + 1)
              (by omega) ?_
            · rw [List.getElem?_cons_succ, List.getElem?_cons_succ] at this
              exact this
            · rcases hlex with hl | ⟨hl1, hl2⟩
              · exact Or.inl (by omega)
              · exact Or.inr ⟨by omega, by omega⟩
    · -- the head element has a duplicate at tail offset j0: result is (0, j0 + 1)
      rcases firstEqIdx_eq_some_iff.mp hA with ⟨h1, h2⟩
      have hj0len : j0 < rest.length := (List.getElem?_eq_some.mp h1).1
      constructor
      · rintro h
        injection h with h
        have hi : i = 0 := (congrArg Prod.fst h).symm
        have hj : j = j0 + 1 := (congrArg Prod.snd h).symm
        subst hi
        subst hj
        refine ⟨by omega, by simpa using Nat.succ_lt_succ hj0len, ?_, ?_⟩
        · rw [List.getElem?_cons_zero, List.getElem?_cons_succ, h1]
        · intro j2 hj2 i2 hi2 hlex
          rcases i2 with _ | i2
          · rcases j2 with _ | j2
            · omega
            · rw [List.getElem?_cons_zero, List.getElem?_cons_succ]
              have hj2' : j2 < j0 := by
                rcases hlex with hl | ⟨hl1, hl2⟩
                · omega
                · omega
              intro hc
              exact h2 j2 hj2' hc.symm
          · rcases hlex with hl | ⟨hl1, hl2⟩
            · omega
            · omega
      · rintro ⟨hlt, hlen, hdup, hmin⟩
        have hi0 : i = 0 := by
          by_contra hi0
          have hc := hmin (j0 + 1) (by simpa using Nat.succ_lt_succ hj0len) 0
            (by omega) (Or.inl (by omega))
          rw [List.getElem?_cons_zero, List.getElem?_cons_succ, h1] at hc
          exact hc rfl
        subst hi0
        rcases j with _ | j1
        · omega
        · have hj1 : j1 = j0 := by
            rcases Nat.lt_trichotomy j1 j0 with hc | hc | hc
            · exfalso
              rw [List.getElem?_cons_zero, List.getElem?_cons_succ] at hdup
              exact h2 j1 hc hdup.symm
            · exact hc
            · exfalso
              have hcmin := hmin (j0 + 1) (by simpa using Nat.succ_lt_succ hj0len) 0
                (by omega) (Or.inr ⟨rfl, by omega⟩)
              rw [List.getElem?_cons_zero, List.getElem?_cons_succ, h1] at hcmin
              exact hcmin rfl
          subst hj1
          rfl

end Flatmap

/-! ## Nodup-key helpers and delete/fold lemmas -/

namespace Flatmap

theorem nodup_map_getElem?_ne {α β : Type} {f : α → β} {l : List α}
    (hnd : (l.map f).Nodup) {i j : Nat} (hij : i ≠ j) (hi : i < l.length)
    (hj : j < l.length) : (l[i]?).map f ≠ (l[j]?).map f := by
  have h := List.nodup_iff_getElem?_ne_getElem?.mp hnd
  have hmi : (l.map f)[i]? = (l[i]?).map f := List.getElem?_map f l i
  have hmj : (l.map f)[j]? = (l[j]?).map f := List.getElem?_map f l j
  rcases Nat.lt_or_ge i j with hlt | hge
  · have := h i j hlt (by simpa using hj)
    rw [hmi, hmj] at this
    exact this
  · have hlt : j < i := by omega
    have := h j i hlt (by simpa using hi)
    rw [hmi, hmj] at this
    exact fun hc => this hc.symm

namespace FlatMap

variable {K V : Type} [DecidableEq K]

theorem findKeyIdx_lt_length {k : K} {l : List (FlatMapEntry K V)} {i : Nat}
    (h : findKeyIdx k l = some i) : i < l.length := by
  rcases (findKeyIdx_eq_some_iff.mp h).1 with h1
  rcases Option.map_eq_some'.mp h1 with ⟨e, he, _⟩
  exact (List.getElem?_eq_some.mp he).1

theorem nodup_findKeyIdx {k : K} {l : List (FlatMapEntry K V)} {i : Nat}
    {e : FlatMapEntry K V} (hnd : (l.map FlatMapEntry.key).Nodup)
    (hi : l[i]? = some e) (he : e.key = k) : findKeyIdx k l = some i := by
  refine findKeyIdx_eq_some_iff.mpr ⟨by simp [hi, he], ?_⟩
  intro j hj hc
  have hjlen : j < l.length := by
    rcases Option.map_eq_some'.mp hc with ⟨e2, he2, _⟩
    exact (List.getElem?_eq_some.mp he2).1
  have hilen : i < l.length := (List.getElem?_eq_some.mp hi).1
  have hne := nodup_map_getElem?_ne hnd (show j ≠ i by omega) hjlen hilen
  rw [hc] at hne
  exact hne (by simp [hi, he])

theorem keys_nodup_delete {m : FlatMap K V} {k : K} (hnd : m.keys.Nodup) :
    ((m.delete k).1).keys.Nodup := by
  unfold delete
  rcases hf : findKeyIdx k m.inner with _ | i
  · exact hnd
  · have hlen : i < m.inner.length := findKeyIdx_lt_length hf
    show ((swapRemove m.inner i).map FlatMapEntry.key).Nodup
    rw [← swapRemove_map]
    exact swapRemove_nodup (by simpa using hlen) hnd

theorem get_from_entries_eq_lastOccurrenceValue (l : List (FlatMapEntry K V)) (k : K) :
    (from_entries l).get k = lastOccurrenceValue k l := by
  induction l using List.reverseRecOn with
  | nil => simp [from_entries, with_capacity, get, getList, lastOccurrenceValue]
  | append_singleton l e ih =>
    rw [from_entries_append]
    have hstep : ((from_entries l).insert e.key e.value).1.get k =
        if e.key = k then some e.value else (from_entries l).get k := by
      show getList k (insertList e.key e.value (from_entries l).inner).1 = _
      exact getList_insertList
    rw [hstep, ih]
    unfold lastOccurrenceValue
    rw [List.reverse_append]
    simp only [List.reverse_cons, List.reverse_nil, List.nil_append, List.singleton_append]
    by_cases he : e.key = k
    · rw [List.find?_cons_of_pos _ (by simp [he])]
      simp [he]
    · rw [List.find?_cons_of_neg _ (by simp [he])]
      simp [he]

end FlatMap

namespace FlatSet

variable {K : Type} [DecidableEq K]

theorem findIdx_lt_length {k : K} {l : List K} {i : Nat}
    (h : findIdx k l = some i) : i < l.length :=
  (List.getElem?_eq_some.mp (findIdx_eq_some_iff.mp h).1).1

theorem nodup_findIdx {k : K} {l : List K} {i : Nat} (hnd : l.Nodup)
    (hi : l[i]? = some k) : findIdx k l = some i := by
  refine findIdx_eq_some_iff.mpr ⟨hi, ?_⟩
  intro j hj hc
  have hjlen : j < l.length := (List.getElem?_eq_some.mp hc).1
  have hilen : i < l.length := (List.getElem?_eq_some.mp hi).1
  have h := List.nodup_iff_getElem?_ne_getElem?.mp hnd j i hj hilen
  rw [hc, hi] at h
  exact h rfl

theorem insert_nodup {s : FlatSet K} {k : K} (hnd : s.inner.Nodup) :
    ((s.insert k).1).inner.Nodup := by
  unfold insert
  by_cases hx : s.has k
  · simp [hx, hnd]
  · simp only [hx, Bool.false_eq_true, if_false]
    have hnm : k ∉ s.inner := by
      rw [← hasList_eq_false_iff]
      simpa [has] using hx
    simp [List.nodup_append, hnd, hnm]

theorem delete_nodup {s : FlatSet K} {k : K} (hnd : s.inner.Nodup) :
    ((s.delete k).1).inner.Nodup := by
  unfold delete
  rcases hf : findIdx k s.inner with _ | i
  · exact hnd
  · exact swapRemove_nodup (findIdx_lt_length hf) hnd

theorem from_iter_eq_firstOccurrenceDedup (l : List K) :
    (from_iter l).inner = firstOccurrenceDedup l := by
  induction l using List.reverseRecOn with
  | nil => simp [from_iter, with_capacity, firstOccurrenceDedup]
  | append_singleton l x ih =>
    rw [from_iter_append]
    unfold firstOccurrenceDedup
    rw [List.foldl_append]
    show ((from_iter l).insert x).1.inner =
      (fun acc y => if y ∈ acc then acc else acc ++ [y]) (firstOccurrenceDedup l) x
    unfold insert
    by_cases hx : (from_iter l).has x
    · have hmem : x ∈ firstOccurrenceDedup l := by
        rw [← ih, ← hasList_eq_true_iff]
        simpa [has] using hx
      simp [hx, hmem, ih]
    · have hmem : x ∉ firstOccurrenceDedup l := by
        rw [← ih, ← hasList_eq_true_iff]
        simpa [has] using hx
      simp [hx, hmem, ih]

theorem mem_from_iter_iff (l : List K) (k : K) :
    k ∈ (from_iter l).inner ↔ k ∈ l := by
  induction l using List.reverseRecOn generalizing k with
  | nil => simp [from_iter, with_capacity]
  | append_singleton l x ih =>
    rw [from_iter_append]
    unfold insert
    by_cases hx : (from_iter l).has x
    · have hxl : x ∈ l := by
        rw [← ih, ← hasList_eq_true_iff]
        simpa [has] using hx
      simp only [hx, if_true]
      rw [ih]
      simp only [List.mem_append, List.mem_singleton]
      constructor
      · exact Or.inl
      · rintro (h | rfl)
        · exact h
        · exact hxl
    · simp only [hx, Bool.false_eq_true, if_false]
      show k ∈ (from_iter l).inner ++ [x] ↔ _
      simp [ih]

end FlatSet

end Flatmap

/-! ## Invariant of insert-only evolution from an unchecked load -/

namespace Flatmap

namespace FlatMap

variable {K V : Type} [DecidableEq K]

omit [DecidableEq K] in
theorem keyAt_eq_some_lt_length {l : List (FlatMapEntry K V)} {j : Nat} {k : K}
    (h : keyAt l j = some k) : j < l.length := by
  rcases Option.map_eq_some'.mp h with ⟨e, he, _⟩
  exact (List.getElem?_eq_some.mp he).1

theorem insertOnly_inv {l0 : List (FlatMapEntry K V)} {m : FlatMap K V}
    (h : InsertOnlyReachable l0 m) :
    l0.length ≤ m.inner.length ∧
    (∀ j, j < l0.length → keyAt m.inner j = keyAt l0 j) ∧
    (∀ j i0 k, i0 < j → keyAt l0 i0 = some k → keyAt l0 j = some k →
      m.inner[j]? = l0[j]?) := by
  induction h with
  | base =>
    exact ⟨Nat.le_refl _, fun j hj => rfl, fun j i0 k h1 h2 h3 => rfl⟩
  | insert m k v hm ih =>
    obtain ⟨ih1, ih2, ih3⟩ := ih
    rcases hf : findKeyIdx k m.inner with _ | i
    · have hinner : (m.insert k v).1.inner = m.inner ++ [FlatMapEntry.new k v] := by
        show (insertList k v m.inner).1 = _
        rw [insertList_of_none hf]
      refine ⟨?_, ?_, ?_⟩
      · rw [hinner, List.length_append]
        omega
      · intro j hj
        have hjm : j < m.inner.length := Nat.lt_of_lt_of_le hj ih1
        unfold keyAt
        rw [hinner, List.getElem?_append, if_pos hjm]
        exact ih2 j hj
      · intro j i0 k2 h1 h2 h3
        have hjlen : j < l0.length := keyAt_eq_some_lt_length h3
        have hjm : j < m.inner.length := Nat.lt_of_lt_of_le hjlen ih1
        rw [hinner, List.getElem?_append, if_pos hjm]
        exact ih3 j i0 k2 h1 h2 h3
    · rcases insertList_of_some (v := v) hf with ⟨e, he, hek, hins⟩
      have hinner : (m.insert k v).1.inner = m.inner.set i (FlatMapEntry.mk e.key v) := by
        show (insertList k v m.inner).1 = _
        rw [hins]
      have hkeys : ∀ j : Nat, keyAt ((m.insert k v).1.inner) j = keyAt m.inner j := by
        intro j
        unfold keyAt
        rw [hinner, ← List.getElem?_map, map_key_set_of_getElem? he v, List.getElem?_map]
      refine ⟨?_, ?_, ?_⟩
      · rw [hinner, List.length_set]
        exact ih1
      · intro j hj
        rw [hkeys]
        exact ih2 j hj
      · intro j i0 k2 h1 h2 h3
        have hjlen : j < l0.length := keyAt_eq_some_lt_length h3
        have hi0len : i0 < l0.length := by omega
        have hij : i ≠ j := by
          intro hc
          subst hc
          have hkm : keyAt m.inner i = some k := by
            unfold keyAt
            rw [he, Option.map_some', hek]
          have hk2 : k2 = k := by
            have hh := ih2 i hjlen
            rw [hkm, h3] at hh
            injection hh with hh
            exact hh.symm
          have hmin := (findKeyIdx_eq_some_iff.mp hf).2 i0 h1
          have hat : keyAt m.inner i0 = some k := by
            rw [ih2 i0 hi0len, h2, hk2]
          exact hmin hat
        rw [hinner, List.getElem?_set_ne hij]
        exact ih3 j i0 k2 h1 h2 h3

end FlatMap

end Flatmap

/-! ## Claim theorems -/

namespace Flatmap

/-- **C9**: converting a pair to a `FlatMapEntry` and back yields exactly the
original pair, both conversion directions are total functions, and the entry
built by `new(k, v)` reports key `k` and value `v`. -/
theorem entry_pair_roundtrip :
    ∀ (K V : Type) (k : K) (v : V) (e : FlatMapEntry K V),
      entryToPair (pairToEntry (k, v)) = (k, v) ∧
      pairToEntry (entryToPair e) = e ∧
      (FlatMapEntry.new k v).key = k ∧
      (FlatMapEntry.new k v).value = v := by
  intro K V k v e
  refine ⟨rfl, ?_, rfl, rfl⟩
  cases e
  rfl

/-- **C10**: the safe `From` conversions into `ConstantFlatMap` adopt the
input array unchanged — for every array, including ones with duplicate keys —
with no validation and no failure signal, unlike the checked `from_entries`,
which rejects the same duplicate-key input. -/
theorem constant_from_array_unvalidated :
    (∀ (K V : Type) (entries : List (FlatMapEntry K V)),
      (ConstantFlatMap.fromEntriesArray entries).inner = entries) ∧
    (∀ (K V : Type) (pairs : List (K × V)),
      (ConstantFlatMap.fromPairsArray pairs).inner = pairs.map pairToEntry) ∧
    (ConstantFlatMap.fromEntriesArray
        [FlatMapEntry.new (0 : Nat) (1 : Nat), FlatMapEntry.new 0 2]).inner
      = [FlatMapEntry.new 0 1, FlatMapEntry.new 0 2] ∧
    (ConstantFlatMap.fromPairsArray [((0 : Nat), (1 : Nat)), (0, 2)]).inner
      = [FlatMapEntry.new 0 1, FlatMapEntry.new 0 2] ∧
    ConstantFlatMap.from_entries [FlatMapEntry.new (0 : Nat) (1 : Nat), FlatMapEntry.new 0 2]
      = Except.error (0, 1) :=
  ⟨fun _ _ _ => rfl, fun _ _ _ => rfl, rfl, rfl, rfl⟩

/-- **C5**: `FlatSet::insert` returns `true` and leaves the set completely
unchanged when an equal element already exists, and returns `false` and
appends the element at the end when no equal element exists. -/
theorem flatset_insert_polarity :
    ∀ (K : Type) [inst : DecidableEq K] (s : FlatSet K) (k : K),
      (k ∈ s.inner → (s.insert k).2 = true ∧ (s.insert k).1 = s) ∧
      (k ∉ s.inner → (s.insert k).2 = false ∧ (s.insert k).1.inner = s.inner ++ [k]) := by
  intro K inst s k
  constructor
  · intro hmem
    have hh : s.has k = true := by
      unfold FlatSet.has
      exact FlatSet.hasList_eq_true_iff.mpr hmem
    simp [FlatSet.insert, hh]
  · intro hmem
    have hh : s.has k = false := by
      unfold FlatSet.has
      exact FlatSet.hasList_eq_false_iff.mpr hmem
    simp [FlatSet.insert, hh]

/-- Witness for C5 at a concrete set: element 1 is present in `{1, 2}`,
element 3 is not. -/
theorem flatset_insert_polarity_witness :
    ((⟨[1, 2]⟩ : FlatSet Nat).insert 1).2 = true ∧
    ((⟨[1, 2]⟩ : FlatSet Nat).insert 1).1 = ⟨[1, 2]⟩ ∧
    ((⟨[1, 2]⟩ : FlatSet Nat).insert 3).2 = false ∧
    ((⟨[1, 2]⟩ : FlatSet Nat).insert 3).1.inner = [1, 2, 3] := by
  have h1 := (flatset_insert_polarity Nat ⟨[1, 2]⟩ 1).1 (by decide)
  have h2 := (flatset_insert_polarity Nat ⟨[1, 2]⟩ 3).2 (by decide)
  exact ⟨h1.1, h1.2, h2.1, h2.2⟩

/-- **C8**: `FlatSet::from_iter` keeps exactly one copy of each distinct
input element, in order of first occurrence; in particular
`from_iter(["a","b","a"])` contains `"a"` and `"b"` and iterates over exactly
2 elements. -/
theorem flatset_from_iter_dedup :
    (∀ (K : Type) [inst : DecidableEq K] (l : List K),
      (FlatSet.from_iter l).inner = firstOccurrenceDedup l ∧
      (FlatSet.from_iter l).inner.Nodup ∧
      (∀ k : K, (FlatSet.from_iter l).has k = true ↔ k ∈ l)) ∧
    (FlatSet.from_iter ["a", "b", "a"]).has "a" = true ∧
    (FlatSet.from_iter ["a", "b", "a"]).has "b" = true ∧
    (FlatSet.from_iter ["a", "b", "a"]).inner.length = 2 := by
  refine ⟨?_, by decide, by decide, by decide⟩
  intro K inst l
  refine ⟨FlatSet.from_iter_eq_firstOccurrenceDedup l, FlatSet.from_iter_nodup l, ?_⟩
  intro k
  unfold FlatSet.has
  rw [FlatSet.hasList_eq_true_iff]
  exact FlatSet.mem_from_iter_iff l k

/-- **C2**: the map built by `FlatMap::from_entries` (and by the conversion
from plain pairs) has pairwise distinct keys, and `get k` returns the value
of the last occurrence of `k` in input order. -/
theorem from_entries_last_entry_wins :
    ∀ (K V : Type) [inst : DecidableEq K] (l : List (FlatMapEntry K V))
      (p : List (K × V)) (k : K),
      (FlatMap.from_entries l).keys.Nodup ∧
      (FlatMap.from_entries l).get k = lastOccurrenceValue k l ∧
      (FlatMap.from_pairs p).keys.Nodup ∧
      (FlatMap.from_pairs p).get k = lastOccurrenceValue k (p.map pairToEntry) := by
  intro K V inst l p k
  exact ⟨FlatMap.keys_nodup_from_entries l,
    FlatMap.get_from_entries_eq_lastOccurrenceValue l k,
    FlatMap.keys_nodup_from_entries (p.map pairToEntry),
    FlatMap.get_from_entries_eq_lastOccurrenceValue (p.map pairToEntry) k⟩

end Flatmap

namespace Flatmap

/-- **C1**: the checked fixed-size constructors fail with exactly the
lexicographically first index pair `(i, j)`, `i < j`, of equal keys
(resp. equal elements) whenever one exists, and otherwise adopt the input
array unchanged, so iteration yields the inputs in original order. -/
theorem constant_from_entries_first_dup_pair :
    (∀ (K V : Type) [inst : DecidableEq K] (entries : List (FlatMapEntry K V)) (i j : Nat),
      i < j → j < entries.length → keyAt entries i = keyAt entries j →
      (∀ j2, j2 < entries.length → ∀ i2, i2 < j2 → pairLexLt (i2, j2) (i, j) →
        keyAt entries i2 ≠ keyAt entries j2) →
      ConstantFlatMap.from_entries entries = Except.error (i, j)) ∧
    (∀ (K V : Type) [inst : DecidableEq K] (entries : List (FlatMapEntry K V)),
      (∀ j2, j2 < entries.length → ∀ i2, i2 < j2 → keyAt entries i2 ≠ keyAt entries j2) →
      ConstantFlatMap.from_entries entries = Except.ok ⟨entries⟩) ∧
    (∀ (K : Type) [inst : DecidableEq K] (entries : List K) (i j : Nat),
      i < j → j < entries.length → entries[i]? = entries[j]? →
      (∀ j2, j2 < entries.length → ∀ i2, i2 < j2 → pairLexLt (i2, j2) (i, j) →
        entries[i2]? ≠ entries[j2]?) →
      ConstantFlatSet.from_entries entries = Except.error (i, j)) ∧
    (∀ (K : Type) [inst : DecidableEq K] (entries : List K),
      (∀ j2, j2 < entries.length → ∀ i2, i2 < j2 → entries[i2]? ≠ entries[j2]?) →
      ConstantFlatSet.from_entries entries = Except.ok ⟨entries⟩) := by
  refine ⟨?_, ?_, ?_, ?_⟩
  · intro K V inst entries i j hij hj heq hmin
    have hdup : findDupPair (entries.map FlatMapEntry.key) = some (i, j) := by
      refine findDupPair_eq_some_iff.mpr ⟨hij, by simpa using hj, ?_, ?_⟩
      · rw [List.getElem?_map, List.getElem?_map]
        exact heq
      · intro j2 hj2 i2 hi2 hlex
        rw [List.getElem?_map, List.getElem?_map]
        exact hmin j2 (by simpa using hj2) i2 hi2 hlex
    unfold ConstantFlatMap.from_entries
    rw [hdup]
  · intro K V inst entries hnd
    have hdup : findDupPair (entries.map FlatMapEntry.key) = none := by
      rcases hcase : findDupPair (entries.map FlatMapEntry.key) with _ | p
      · rfl
      · exfalso
        rcases p with ⟨i, j⟩
        rcases findDupPair_eq_some_iff.mp hcase with ⟨h1, h2, h3, _⟩
        rw [List.getElem?_map, List.getElem?_map] at h3
        exact hnd j (by simpa using h2) i h1 h3
    unfold ConstantFlatMap.from_entries
    rw [hdup]
    rfl
  · intro K inst entries i j hij hj heq hmin
    have hdup : findDupPair entries = some (i, j) :=
      findDupPair_eq_some_iff.mpr ⟨hij, hj, heq, hmin⟩
    unfold ConstantFlatSet.from_entries
    rw [hdup]
  · intro K inst entries hnd
    have hdup : findDupPair entries = none := by
      rcases hcase : findDupPair entries with _ | p
      · rfl
      · exfalso
        rcases p with ⟨i, j⟩
        rcases findDupPair_eq_some_iff.mp hcase with ⟨h1, h2, h3, _⟩
        exact hnd j h2 i h1 h3
    unfold ConstantFlatSet.from_entries
    rw [hdup]
    rfl

/-- Witness for C1 at concrete arrays: a duplicate-key array fails with its
lexicographically first colliding pair, a duplicate-free array is adopted
as-is; same for the set variant. -/
theorem constant_from_entries_first_dup_pair_witness :
    ConstantFlatMap.from_entries
        [FlatMapEntry.new (5 : Nat) (1 : Nat), FlatMapEntry.new 6 2, FlatMapEntry.new 5 3]
      = Except.error (0, 2) ∧
    ConstantFlatMap.from_entries [FlatMapEntry.new (1 : Nat) (1 : Nat), FlatMapEntry.new 2 2]
      = Except.ok ⟨[FlatMapEntry.new 1 1, FlatMapEntry.new 2 2]⟩ ∧
    ConstantFlatSet.from_entries ([7, 8, 8, 7] : List Nat) = Except.error (0, 3) ∧
    ConstantFlatSet.from_entries ([1, 2, 3] : List Nat) = Except.ok ⟨[1, 2, 3]⟩ := by
  refine ⟨?_, ?_, ?_, ?_⟩
  · exact constant_from_entries_first_dup_pair.1 Nat Nat
      [FlatMapEntry.new 5 1, FlatMapEntry.new 6 2, FlatMapEntry.new 5 3] 0 2
      (by decide) (by decide) (by decide) (by decide)
  · exact constant_from_entries_first_dup_pair.2.1 Nat Nat
      [FlatMapEntry.new 1 1, FlatMapEntry.new 2 2] (by decide)
  · exact constant_from_entries_first_dup_pair.2.2.1 Nat [7, 8, 8, 7] 0 3
      (by decide) (by decide) (by decide) (by decide)
  · exact constant_from_entries_first_dup_pair.2.2.2 Nat [1, 2, 3] (by decide)

/-- **C3**: `FlatMap::insert(k, v)` on a key present at the first matching
slot `i` returns the previous value of that slot, overwrites only that
slot's value (keeping the stored key, the key sequence, and the length), and
on an absent key appends a new entry at the end and returns `none`. -/
theorem flatmap_insert_spec :
    ∀ (K V : Type) [inst : DecidableEq K] (m : FlatMap K V) (k : K) (v : V),
      (∀ (i : Nat) (e : FlatMapEntry K V), m.inner[i]? = some e → e.key = k →
        (∀ j, j < i → keyAt m.inner j ≠ some k) →
        (m.insert k v).2 = some e.value ∧
        (m.insert k v).1.inner = m.inner.set i (FlatMapEntry.mk e.key v) ∧
        (m.insert k v).1.inner.length = m.inner.length ∧
        (m.insert k v).1.keys = m.keys) ∧
      ((∀ e ∈ m.inner, e.key ≠ k) →
        (m.insert k v).2 = none ∧
        (m.insert k v).1.inner = m.inner ++ [FlatMapEntry.new k v]) := by
  intro K V inst m k v
  constructor
  · intro i e hi he hfirst
    have hf : FlatMap.findKeyIdx k m.inner = some i :=
      FlatMap.findKeyIdx_eq_some_iff.mpr ⟨by simp [hi, he], hfirst⟩
    rcases FlatMap.insertList_of_some (v := v) hf with ⟨e2, he2, hk2, hins⟩
    rw [hi] at he2
    injection he2 with he2
    subst he2
    refine ⟨?_, ?_, ?_, ?_⟩
    · show (FlatMap.insertList k v m.inner).2 = some e.value
      rw [hins]
    · show (FlatMap.insertList k v m.inner).1 = _
      rw [hins]
    · show (FlatMap.insertList k v m.inner).1.length = _
      rw [hins]
      exact List.length_set m.inner i _
    · show ((FlatMap.insertList k v m.inner).1).map FlatMapEntry.key
        = m.inner.map FlatMapEntry.key
      rw [hins]
      exact FlatMap.map_key_set_of_getElem? hi v
  · intro hall
    have hf : FlatMap.findKeyIdx k m.inner = none :=
      FlatMap.findKeyIdx_eq_none_iff.mpr hall
    have hins := FlatMap.insertList_of_none (v := v) hf
    constructor
    · show (FlatMap.insertList k v m.inner).2 = none
      rw [hins]
    · show (FlatMap.insertList k v m.inner).1 = _
      rw [hins]

/-- Witness for C3 at a concrete map: overwriting key 2 returns the old value
20 and rewrites only that slot; inserting fresh key 3 appends it. -/
theorem flatmap_insert_spec_witness :
    ((⟨[FlatMapEntry.new 1 10, FlatMapEntry.new 2 20]⟩ : FlatMap Nat Nat).insert 2 99).2
      = some 20 ∧
    ((⟨[FlatMapEntry.new 1 10, FlatMapEntry.new 2 20]⟩ : FlatMap Nat Nat).insert 2 99).1.inner
      = [FlatMapEntry.new 1 10, FlatMapEntry.new 2 99] ∧
    ((⟨[FlatMapEntry.new 1 10, FlatMapEntry.new 2 20]⟩ : FlatMap Nat Nat).insert 3 5).2
      = none ∧
    ((⟨[FlatMapEntry.new 1 10, FlatMapEntry.new 2 20]⟩ : FlatMap Nat Nat).insert 3 5).1.inner
      = [FlatMapEntry.new 1 10, FlatMapEntry.new 2 20, FlatMapEntry.new 3 5] := by
  have h1 := (flatmap_insert_spec Nat Nat ⟨[FlatMapEntry.new 1 10, FlatMapEntry.new 2 20]⟩
      2 99).1 1 (FlatMapEntry.new 2 20) rfl rfl (by decide)
  have h2 := (flatmap_insert_spec Nat Nat ⟨[FlatMapEntry.new 1 10, FlatMapEntry.new 2 20]⟩
      3 5).2 (by decide)
  exact ⟨h1.1, h1.2.1.trans (by decide), h2.1, h2.2.trans (by decide)⟩

end Flatmap

namespace Flatmap

/-- Counterexample to **C7** as stated: after the unchecked constructor is
given two entries with key 0 (values 1 and 2), `get 0` initially returns the
first slot's value 1, but the operation sequence `[delete 0]` makes `get 0`
return 2 — the value stored in the duplicate slot beyond the first matching
occurrence — because `delete` swap-removes the first slot and moves the
duplicate entry into it.  So the duplicate slot is not permanently
unreachable. -/
theorem unchecked_duplicate_reachable_after_delete :
    ((FlatMap.from_entries_unchecked
        [FlatMapEntry.new 0 1, FlatMapEntry.new 0 2] : FlatMap Nat Nat).get 0 = some 1) ∧
    ((((FlatMap.from_entries_unchecked
        [FlatMapEntry.new 0 1, FlatMapEntry.new 0 2] : FlatMap Nat Nat).delete 0).1).get 0
      = some 2) :=
  ⟨rfl, rfl⟩

/-- Amended **C7**: under every subsequent sequence of `get` and `insert`
operations (deletes excluded), a duplicate slot `j` (one whose key `k`
already occurs at an earlier slot `i0` of the unchecked input `l0`) is never
modified, and `get k` always reads from a slot strictly before `j` — so the
duplicate slot stays unreachable dead storage.  A `delete` may instead move
the duplicate entry into a reachable slot. -/
theorem unchecked_duplicate_unreachable_without_delete :
    ∀ (K V : Type) [inst : DecidableEq K] (l0 : List (FlatMapEntry K V)) (m : FlatMap K V),
      InsertOnlyReachable l0 m →
      ∀ (j i0 : Nat) (k : K), i0 < j → keyAt l0 i0 = some k → keyAt l0 j = some k →
        m.inner[j]? = l0[j]? ∧
        ∃ i, i < j ∧ FlatMap.findKeyIdx k m.inner = some i ∧
          m.get k = (m.inner[i]?).map FlatMapEntry.value := by
  intro K V inst l0 m h j i0 k hij h2 h3
  obtain ⟨inv1, inv2, inv3⟩ := FlatMap.insertOnly_inv h
  refine ⟨inv3 j i0 k hij h2 h3, ?_⟩
  have hi0len : i0 < l0.length := FlatMap.keyAt_eq_some_lt_length h2
  have hat : keyAt m.inner i0 = some k := by
    rw [inv2 i0 hi0len]
    exact h2
  rcases hf : FlatMap.findKeyIdx k m.inner with _ | i
  · exfalso
    rcases Option.map_eq_some'.mp hat with ⟨e, he, hek⟩
    exact (FlatMap.findKeyIdx_eq_none_iff.mp hf) e (List.getElem?_mem he) hek
  · have hle : i ≤ i0 := by
      by_contra hgt
      exact ((FlatMap.findKeyIdx_eq_some_iff.mp hf).2 i0 (by omega)) hat
    exact ⟨i, by omega, rfl, FlatMap.getList_eq_of_findKeyIdx hf⟩

/-- Witness for the amended C7: after an unrelated `insert 5 7` on the
corrupted map, the duplicate slot 1 still holds its original entry and
`get 0` still reads value 1 from slot 0. -/
theorem unchecked_duplicate_unreachable_without_delete_witness :
    (((FlatMap.from_entries_unchecked
        [FlatMapEntry.new 0 1, FlatMapEntry.new 0 2] : FlatMap Nat Nat).insert 5 7).1.inner[1]?
      = some (FlatMapEntry.new 0 2)) ∧
    (((FlatMap.from_entries_unchecked
        [FlatMapEntry.new 0 1, FlatMapEntry.new 0 2] : FlatMap Nat Nat).insert 5 7).1.get 0
      = some 1) := by
  have h := unchecked_duplicate_unreachable_without_delete Nat Nat
      [FlatMapEntry.new 0 1, FlatMapEntry.new 0 2]
      ((FlatMap.from_entries_unchecked
        [FlatMapEntry.new 0 1, FlatMapEntry.new 0 2]).insert 5 7).1
      (InsertOnlyReachable.insert _ 5 7 InsertOnlyReachable.base)
      1 0 0 (by decide) rfl rfl
  refine ⟨h.1.trans (by decide), ?_⟩
  obtain ⟨i, hi, hf, hget⟩ := h.2
  interval_cases i
  rw [hget]
  rfl

/-- **C4**: with pairwise-distinct keys, `delete` on a present key removes
exactly that slot by swap-with-last-then-pop — it returns the slot's value,
the key afterwards looks absent, the length drops by one, the previously
last element moves into the freed slot (when the removed slot was not the
last), and every other slot keeps its element; on an absent key the
container is returned unchanged.  `FlatSet::delete` behaves the same and
returns `true` exactly when the element was present. -/
theorem delete_swap_remove_spec :
    (∀ (K V : Type) [inst : DecidableEq K] (m : FlatMap K V) (k : K),
      m.keys.Nodup →
      (∀ (i : Nat) (e : FlatMapEntry K V), m.inner[i]? = some e → e.key = k →
        (m.delete k).2 = some e.value ∧
        (m.delete k).1.get k = none ∧
        (m.delete k).1.inner.length = m.inner.length - 1 ∧
        (i + 1 < m.inner.length → (m.delete k).1.inner[i]? = m.inner.getLast?) ∧
        (∀ j, j < m.inner.length - 1 → j ≠ i → (m.delete k).1.inner[j]? = m.inner[j]?)) ∧
      ((∀ e ∈ m.inner, e.key ≠ k) → (m.delete k).2 = none ∧ (m.delete k).1 = m)) ∧
    (∀ (K : Type) [inst : DecidableEq K] (s : FlatSet K) (k : K),
      s.inner.Nodup →
      (∀ i : Nat, s.inner[i]? = some k →
        (s.delete k).2 = true ∧
        (s.delete k).1.has k = false ∧
        (s.delete k).1.inner.length = s.inner.length - 1 ∧
        (i + 1 < s.inner.length → (s.delete k).1.inner[i]? = s.inner.getLast?) ∧
        (∀ j, j < s.inner.length - 1 → j ≠ i → (s.delete k).1.inner[j]? = s.inner[j]?)) ∧
      (k ∉ s.inner → (s.delete k).2 = false ∧ (s.delete k).1 = s) ∧
      ((s.delete k).2 = s.has k)) := by
  constructor
  · intro K V inst m k hnd
    constructor
    · intro i e hi he
      have hf : FlatMap.findKeyIdx k m.inner = some i :=
        FlatMap.nodup_findKeyIdx hnd hi he
      have hilen : i < m.inner.length := (List.getElem?_eq_some.mp hi).1
      have hres : (m.delete k).1.inner = swapRemove m.inner i := by
        unfold FlatMap.delete
        rw [hf]
      have hval : (m.delete k).2 = some e.value := by
        unfold FlatMap.delete
        rw [hf]
        show (m.inner[i]?).map FlatMapEntry.value = some e.value
        rw [hi]
        rfl
      refine ⟨hval, ?_, ?_, ?_, ?_⟩
      · show FlatMap.getList k (m.delete k).1.inner = none
        rw [hres]
        refine FlatMap.getList_eq_none_iff.mpr ?_
        intro e2 hmem hkey
        rcases swapRemove_mem hilen hmem with ⟨j, hjlen, hji, hj⟩
        have hne := nodup_map_getElem?_ne hnd hji hjlen hilen
        rw [hj, hi] at hne
        exact hne (by simp [hkey, he])
      · rw [hres]
        exact swapRemove_length hilen
      · intro hlast
        rw [hres, swapRemove_getElem? hilen i, if_pos (by omega), if_pos rfl]
        exact (List.getLast?_eq_getElem? m.inner).symm
      · intro j hj hji
        rw [hres, swapRemove_getElem? hilen j, if_pos hj, if_neg hji]
    · intro hall
      have hf : FlatMap.findKeyIdx k m.inner = none :=
        FlatMap.findKeyIdx_eq_none_iff.mpr hall
      constructor
      · unfold FlatMap.delete
        rw [hf]
      · unfold FlatMap.delete
        rw [hf]
  · intro K inst s k hnd
    refine ⟨?_, ?_, ?_⟩
    · intro i hi
      have hf : FlatSet.findIdx k s.inner = some i := FlatSet.nodup_findIdx hnd hi
      have hilen : i < s.inner.length := (List.getElem?_eq_some.mp hi).1
      have hres : (s.delete k).1.inner = swapRemove s.inner i := by
        unfold FlatSet.delete
        rw [hf]
      have hval : (s.delete k).2 = true := by
        unfold FlatSet.delete
        rw [hf]
      refine ⟨hval, ?_, ?_, ?_, ?_⟩
      · show FlatSet.hasList k (s.delete k).1.inner = false
        rw [hres]
        refine FlatSet.hasList_eq_false_iff.mpr ?_
        intro hmem
        rcases swapRemove_mem hilen hmem with ⟨j, hjlen, hji, hj⟩
        have hne := List.nodup_iff_getElem?_ne_getElem?.mp hnd
        rcases Nat.lt_or_ge j i with hlt | hge
        · exact hne j i hlt hilen (hj.trans hi.symm)
        · exact hne i j (by omega) hjlen (hi.trans hj.symm)
      · rw [hres]
        exact swapRemove_length hilen
      · intro hlast
        rw [hres, swapRemove_getElem? hilen i, if_pos (by omega), if_pos rfl]
        exact (List.getLast?_eq_getElem? s.inner).symm
      · intro j hj hji
        rw [hres, swapRemove_getElem? hilen j, if_pos hj, if_neg hji]
    · intro hnm
      have hf : FlatSet.findIdx k s.inner = none := FlatSet.findIdx_eq_none_iff.mpr hnm
      constructor
      · unfold FlatSet.delete
        rw [hf]
      · unfold FlatSet.delete
        rw [hf]
    · rcases hf : FlatSet.findIdx k s.inner with _ | i
      · have hnm : k ∉ s.inner := FlatSet.findIdx_eq_none_iff.mp hf
        have hh : s.has k = false := by
          unfold FlatSet.has
          exact FlatSet.hasList_eq_false_iff.mpr hnm
        unfold FlatSet.delete
        rw [hf, hh]
      · have hmem : k ∈ s.inner :=
          List.getElem?_mem (FlatSet.findIdx_eq_some_iff.mp hf).1
        have hh : s.has k = true := by
          unfold FlatSet.has
          exact FlatSet.hasList_eq_true_iff.mpr hmem
        unfold FlatSet.delete
        rw [hf, hh]

end Flatmap

namespace Flatmap

/-- Witness for C4 at concrete containers: deleting present key 1 from a
3-entry map returns 10, hides the key, moves the old last entry into slot 0
and keeps slot 1; deleting absent key 7 is a no-op.  Same shape for the set,
whose boolean result equals presence. -/
theorem delete_swap_remove_spec_witness :
    ((⟨[FlatMapEntry.new 1 10, FlatMapEntry.new 2 20, FlatMapEntry.new 3 30]⟩ :
        FlatMap Nat Nat).delete 1).2 = some 10 ∧
    ((⟨[FlatMapEntry.new 1 10, FlatMapEntry.new 2 20, FlatMapEntry.new 3 30]⟩ :
        FlatMap Nat Nat).delete 1).1.get 1 = none ∧
    ((⟨[FlatMapEntry.new 1 10, FlatMapEntry.new 2 20, FlatMapEntry.new 3 30]⟩ :
        FlatMap Nat Nat).delete 1).1.inner.length = 2 ∧
    ((⟨[FlatMapEntry.new 1 10, FlatMapEntry.new 2 20, FlatMapEntry.new 3 30]⟩ :
        FlatMap Nat Nat).delete 1).1.inner[0]? = some (FlatMapEntry.new 3 30) ∧
    ((⟨[FlatMapEntry.new 1 10, FlatMapEntry.new 2 20, FlatMapEntry.new 3 30]⟩ :
        FlatMap Nat Nat).delete 1).1.inner[1]? = some (FlatMapEntry.new 2 20) ∧
    ((⟨[FlatMapEntry.new 1 10, FlatMapEntry.new 2 20, FlatMapEntry.new 3 30]⟩ :
        FlatMap Nat Nat).delete 7).2 = none ∧
    ((⟨[FlatMapEntry.new 1 10, FlatMapEntry.new 2 20, FlatMapEntry.new 3 30]⟩ :
        FlatMap Nat Nat).delete 7).1
      = ⟨[FlatMapEntry.new 1 10, FlatMapEntry.new 2 20, FlatMapEntry.new 3 30]⟩ ∧
    ((⟨[4, 5, 6]⟩ : FlatSet Nat).delete 4).2 = true ∧
    ((⟨[4, 5, 6]⟩ : FlatSet Nat).delete 4).1.has 4 = false ∧
    ((⟨[4, 5, 6]⟩ : FlatSet Nat).delete 4).1.inner[0]? = some 6 ∧
    ((⟨[4, 5, 6]⟩ : FlatSet Nat).delete 9).2 = false ∧
    ((⟨[4, 5, 6]⟩ : FlatSet Nat).delete 9).2 = (⟨[4, 5, 6]⟩ : FlatSet Nat).has 9 := by
  have hm := ((delete_swap_remove_spec.1 Nat Nat
      ⟨[FlatMapEntry.new 1 10, FlatMapEntry.new 2 20, FlatMapEntry.new 3 30]⟩ 1
      (by decide)).1) 0 (FlatMapEntry.new 1 10) rfl rfl
  have hm2 := ((delete_swap_remove_spec.1 Nat Nat
      ⟨[FlatMapEntry.new 1 10, FlatMapEntry.new 2 20, FlatMapEntry.new 3 30]⟩ 7
      (by decide)).2) (by decide)
  have hs := ((delete_swap_remove_spec.2 Nat ⟨[4, 5, 6]⟩ 4 (by decide)).1) 0 rfl
  have hs2 := ((delete_swap_remove_spec.2 Nat ⟨[4, 5, 6]⟩ 9 (by decide)).2.1) (by decide)
  have hs3 := (delete_swap_remove_spec.2 Nat ⟨[4, 5, 6]⟩ 9 (by decide)).2.2
  exact ⟨hm.1, hm.2.1, hm.2.2.1, (hm.2.2.2.1 (by decide)).trans (by decide),
    (hm.2.2.2.2 1 (by decide) (by decide)).trans (by decide), hm2.1, hm2.2,
    hs.1, hs.2.1, (hs.2.2.2.1 (by decide)).trans (by decide), hs2.1, hs3⟩

/-- **C6**: every `FlatMap` (resp. `FlatSet`) reachable from the checked
constructors through any sequence of `insert` and `delete` operations has
pairwise-distinct keys (resp. pairwise-distinct elements). -/
theorem no_duplicate_keys_invariant :
    (∀ (K V : Type) [inst : DecidableEq K] (m : FlatMap K V),
      FlatMapReachable m → m.keys.Nodup) ∧
    (∀ (K : Type) [inst : DecidableEq K] (s : FlatSet K),
      FlatSetReachable s → s.inner.Nodup) := by
  constructor
  · intro K V inst m h
    induction h with
    | new => simp [FlatMap.new, FlatMap.with_capacity, FlatMap.keys]
    | with_capacity n => simp [FlatMap.with_capacity, FlatMap.keys]
    | from_entries l => exact FlatMap.keys_nodup_from_entries l
    | from_pairs l => exact FlatMap.keys_nodup_from_entries (l.map pairToEntry)
    | insert m k v hm ih => exact FlatMap.keys_nodup_insertList ih
    | delete m k hm ih => exact FlatMap.keys_nodup_delete ih
  · intro K inst s h
    induction h with
    | new => simp [FlatSet.new, FlatSet.with_capacity]
    | with_capacity n => simp [FlatSet.with_capacity]
    | from_iter l => exact FlatSet.from_iter_nodup l
    | insert s k hs ih => exact FlatSet.insert_nodup ih
    | delete s k hs ih => exact FlatSet.delete_nodup ih

/-- Witness for C6 on a concrete reachable map and set. -/
theorem no_duplicate_keys_invariant_witness :
    (((FlatMap.new : FlatMap Nat Nat).insert 1 2).1.delete 1).1.keys.Nodup ∧
    ((FlatSet.from_iter [5, 5, 6] : FlatSet Nat).insert 7).1.inner.Nodup := by
  constructor
  · exact no_duplicate_keys_invariant.1 Nat Nat _
      (FlatMapReachable.delete _ 1 (FlatMapReachable.insert _ 1 2 FlatMapReachable.new))
  · exact no_duplicate_keys_invariant.2 Nat _
      (FlatSetReachable.insert _ 7 (FlatSetReachable.from_iter [5, 5, 6]))

end Flatmap
